import Mathlib

/-!
Verification of the tunic-notes glyph analysis program (src/tunic.py).

The Python source is shallowly embedded below:

* `glyph_ordering`, `clean_glyph` model the canonicalizer (tunic.py lines
  165-181);
* `Sec`/`Child` model the Lark parse tree produced by `GRAMMAR` (the `_line`
  rule is inlined by Lark, so a section's children are the flattened word and
  literal tokens of its lines, or nested sections);
* `processSec`/`processChildren` model the `CleanAndAnnotate` transformer
  (the `glyph`, `word`, `section` and `start` callbacks) together with the
  module-level registries `FOUND_GLYPHS`, `FOUND_WORDS` and `SOURCE_TEXTS`,
  threaded as an explicit state `St`;
* `points_of_interest` models the function of the same name (lines 243-245);
* `process_glyph` (with `possible_components`, `extract`,
  `decompose_options`) models the per-glyph decomposition block of
  `process_text` (lines 258-292).  The tables `SOUND_TRANSLATIONS` and
  `SUBGLYPH_SOUNDS` are referenced by `process_text` but defined nowhere in
  the file; they are curated data tables, so they appear here as parameters
  (an association list keyed by strings, and one keyed by character sets).
-/

/-- The fixed keyboard-order alphabet string "1234QWERASDFZXCV" used by
`glyph_ordering`, as a list of characters. -/
def keyboard : List Char :=
  ['1', '2', '3', '4', 'Q', 'W', 'E', 'R', 'A', 'S', 'D', 'F', 'Z', 'X', 'C', 'V']

/-- `glyph_ordering(char)` from tunic.py: `"1234QWERASDFZXCV".find(char)`,
the index of the character in the keyboard string, `-1` when absent. -/
def glyph_ordering (c : Char) : Int :=
  match keyboard.findIdx? (fun d => d == c) with
  | some n => (n : Int)
  | none => -1

/-- The comparison used by Python's `sorted(..., key=glyph_ordering)`. -/
def rle (a b : Char) : Prop := glyph_ordering a ≤ glyph_ordering b

instance : DecidableRel rle := fun a b =>
  inferInstanceAs (Decidable (glyph_ordering a ≤ glyph_ordering b))

instance : IsTotal Char rle := ⟨fun a b => le_total (glyph_ordering a) (glyph_ordering b)⟩

instance : IsTrans Char rle := ⟨fun _ _ _ h1 h2 => le_trans h1 h2⟩

/-- Characters kept by `clean_glyph`: everything except the two linking
characters `E`, `C` and the separator `-` (the three `replace` calls). -/
def keepB (c : Char) : Bool := c != 'E' && c != 'C' && c != '-'

/-- `clean_glyph(glyph)` from tunic.py lines 170-181:
`"".join(sorted(set(glyph.replace("E","").replace("C","").replace("-","")), key=glyph_ordering))`.
The `replace` calls are the filter, `set` is the deduplication, and
`sorted(..., key=glyph_ordering)` is the stable sort by rank.  (For inputs
inside the grammar's character class all remaining ranks are distinct, so the
sorted result does not depend on the unordered `set` iteration order.) -/
def clean_glyph (glyph : String) : String :=
  String.mk (List.insertionSort rle ((glyph.toList.filter keepB).dedup))

/-- A character of the grammar's glyph token class `[1234QWERASDFZXCV-]`. -/
def glyphCharB (c : Char) : Bool := decide (c ∈ keyboard) || decide (c = '-')

/-- A string accepted as a `glyph` token by `GRAMMAR` (line 19): a non-empty
run of characters of the class `[1234QWERASDFZXCV-]`. -/
def glyphTokenOK (s : String) : Bool := !s.isEmpty && s.toList.all glyphCharB

-- ## The parse tree produced by GRAMMAR

mutual
/-- The Lark parse tree handed to the `CleanAndAnnotate` transformer.
`GRAMMAR` (tunic.py lines 12-26) inlines the `_line` rule, so a section node's
children are its `HEADER` token followed by a flattened mixture of word
nodes, bracketed `LITERAL` tokens and nested section nodes.  A word node's
children are its raw glyph token strings. -/
inductive Sec where
  | mk (header : String) (children : List Child)
inductive Child where
  | lit (s : String)
  | word (glyphs : List String)
  | sub (sec : Sec)
end

def Sec.header : Sec → String
  | .mk h _ => h

def Sec.children : Sec → List Child
  | .mk _ cs => cs

/-- The dictionary value returned by the transformer's `section` callback:
`{"header": section_name, "subsections": subsections, "text": text}`. -/
inductive SDict where
  | mk (header : String) (subsections : List SDict) (text : List String)

def SDict.header : SDict → String
  | .mk h _ _ => h

def SDict.subsections : SDict → List SDict
  | .mk _ ss _ => ss

def SDict.text : SDict → List String
  | .mk _ _ t => t

/-- The module-level registries of tunic.py threaded as explicit state:
`FOUND_GLYPHS` (glyph key to set of containing words), `FOUND_WORDS`
(word key to set of locations) and `SOURCE_TEXTS`.  The `defaultdict(set)`
registries are total maps defaulting to the empty set. -/
structure St where
  found_glyphs : String → Finset String
  found_words : String → Finset String
  source_texts : List (String × String)

/-- The initial (module load time) state: empty default dictionaries. -/
def St.init : St := ⟨fun _ => ∅, fun _ => ∅, []⟩

/-- `defaultdict`'s `m[k].add(v)`. -/
def dinsert (m : String → Finset String) (k v : String) : String → Finset String :=
  fun x => if x = k then insert v (m k) else m x

/-- The canonical word string built by the `word` callback:
`"/".join(tree.children)` where the children have already been rewritten by
the `glyph` callback to `clean_glyph` of the raw token. -/
def wordString (glyphs : List String) : String :=
  String.intercalate "/" (glyphs.map clean_glyph)

/-- One step of the `word` callback's loop: `FOUND_GLYPHS[glyph].add(this_word)`. -/
def addGlyphOcc (w : String) (st : St) (g : String) : St :=
  { st with found_glyphs := dinsert st.found_glyphs g w }

/-- The `word` callback (tunic.py lines 193-198): registers the word under
each of its (cleaned) glyphs in `FOUND_GLYPHS` and returns the word string. -/
def word_cb (glyphs : List String) (st : St) : St :=
  (glyphs.map clean_glyph).foldl (addGlyphOcc (wordString glyphs)) st

/-- The text fragment a child contributes to the section's `text` list:
literals are re-bracketed, words contribute their canonical string,
subsection dictionaries contribute nothing. -/
def childText : Child → Option String
  | .lit l => some ("[" ++ l ++ "]")
  | .word gs => some (wordString gs)
  | .sub _ => none

/-- The entry a child contributes to the section callback's `words` list. -/
def childWord : Child → Option String
  | .lit _ => none
  | .word gs => some (wordString gs)
  | .sub _ => none

/-- `whole_line = " ".join(text)` computed by the `section` callback. -/
def Sec.line (sec : Sec) : String :=
  String.intercalate " " (sec.children.filterMap childText)

/-- One step of the `section` callback's loop: `FOUND_WORDS[word].add(whole_line)`. -/
def addWordLoc (line : String) (st : St) (w : String) : St :=
  { st with found_words := dinsert st.found_words w line }

mutual
/-- `processSec` models parsing a section with the in-place transformer:
the children's callbacks fire first (in order, bottom-up), then the
`section` callback (tunic.py lines 200-221) builds `text`, `words` and
`subsections`, adds `whole_line` to `FOUND_WORDS[word]` for each word, and
appends `(section_name, whole_line)` to `SOURCE_TEXTS`. -/
def processSec : Sec → St → SDict × St
  | .mk h cs, st =>
    let p := processChildren cs st
    let st2 := (cs.filterMap childWord).foldl (addWordLoc (Sec.line (.mk h cs))) p.2
    (SDict.mk h p.1 (cs.filterMap childText),
      { st2 with source_texts := st2.source_texts ++ [(h, Sec.line (.mk h cs))] })
def processChildren : List Child → St → List SDict × St
  | [], st => ([], st)
  | .lit _ :: rest, st => processChildren rest st
  | .word gs :: rest, st => processChildren rest (word_cb gs st)
  | .sub s :: rest, st =>
    let p := processSec s st
    let q := processChildren rest p.2
    (p.1 :: q.1, q.2)
end

/-- The `start` callback: `return tree.children`, the singleton list holding
the one top-level section's dictionary. -/
def processStart (doc : Sec) (st : St) : List SDict × St :=
  ([(processSec doc st).1], (processSec doc st).2)

mutual
/-- All section nodes of a tree, the root included. -/
def Sec.allSecs : Sec → List Sec
  | .mk h cs => Sec.mk h cs :: childrenSecs cs
def childrenSecs : List Child → List Sec
  | [] => []
  | .lit _ :: rest => childrenSecs rest
  | .word _ :: rest => childrenSecs rest
  | .sub s :: rest => Sec.allSecs s ++ childrenSecs rest
end

mutual
/-- Grammar conformance of a tree: every word's raw glyph tokens are
non-empty runs over the glyph token character class. -/
def Sec.wf : Sec → Bool
  | .mk _ cs => childrenWF cs
def childrenWF : List Child → Bool
  | [] => true
  | .lit _ :: rest => childrenWF rest
  | .word gs :: rest => gs.all glyphTokenOK && childrenWF rest
  | .sub s :: rest => Sec.wf s && childrenWF rest
end

/-- Processing a corpus: each file's parse (tunic.py `_main`) runs the
transformer against the shared registries, starting from module load. -/
def processCorpus (docs : List Sec) : St :=
  docs.foldl (fun st d => (processSec d st).2) St.init

/-- The shape invariant of the `FOUND_GLYPHS` registry: every word recorded
under a glyph key is the `/`-join of the canonical glyphs of some raw glyph
token list, the key is one of those canonical components, and no component
contains a `/` (so the `/`-separated decomposition of the word is exactly
that component list). -/
def GInv (st : St) : Prop :=
  ∀ g w, w ∈ st.found_glyphs g →
    ∃ raws : List String, w = String.intercalate "/" (raws.map clean_glyph) ∧
      g ∈ raws.map clean_glyph ∧
      ∀ p ∈ raws.map clean_glyph, ∀ c ∈ p.toList, c ≠ '/'

-- ## points_of_interest

/-- `points_of_interest(search_space, n)` (tunic.py lines 243-245):
`{k: v for (k, v) in search_space.items() if len(v) >= n}`.  The dictionary
is modelled as its item list. -/
def points_of_interest (search_space : List (String × Finset String)) (n : Nat) :
    List (String × Finset String) :=
  search_space.filter (fun kv => decide (n ≤ kv.2.card))

-- ## The decomposition search of process_text

/-- `possible_components = [rep for rep in SUBGLYPH_SOUNDS if rep < glyph_parts]`
(tunic.py lines 266-268).  The `SUBGLYPH_SOUNDS` dictionary (curated data,
not defined in tunic.py) is modelled as its insertion-ordered item list;
iterating carries each key's sound label along with it. -/
def possible_components (subglyph_sounds : List (Finset Char × String))
    (glyph_parts : Finset Char) : List (Finset Char × String) :=
  subglyph_sounds.filter (fun rep => decide (rep.1 ⊂ glyph_parts))

/-- The inner `for subglyph in sequence` loop with its `for ... else` clause
(tunic.py lines 275-286): greedily subtract fitting components from the
remaining character set, stopping (`break`) as soon as nothing remains; when
the sequence runs out with something left, append the canonical form of the
residue. -/
def extract : List (Finset Char × String) → Finset Char → List String → List String
  | [], g, sounds => sounds ++ [clean_glyph (String.mk (g.sort (fun a b => a ≤ b)))]
  | (sub, lbl) :: rest, g, sounds =>
    if sub ⊆ g then
      if g \ sub = ∅ then sounds ++ [lbl]
      else extract rest (g \ sub) (sounds ++ [lbl])
    else extract rest g sounds

/-- The `options` set accumulated over `itertools.permutations(possible_components)`
(tunic.py lines 271-288): each permutation contributes `"_".join(sounds)`.
`List.permutations'` enumerates exactly the orderings of the component list
(`List.mem_permutations'`), matching `itertools.permutations`; since every
contribution lands in one set, the enumeration order is immaterial. -/
def decompose_options (subglyph_sounds : List (Finset Char × String))
    (glyph_parts : Finset Char) : Finset String :=
  (((possible_components subglyph_sounds glyph_parts).permutations').map
    (fun sequence => String.intercalate "_" (extract sequence glyph_parts []))).toFinset

/-- The single element `process_text` appends to `by_sound` for one glyph:
either the direct `SOUND_TRANSLATIONS` label, or the set of decomposition
options, or the unidentified glyph itself. -/
inductive BySound where
  | label (s : String)
  | options (opts : Finset String)
  | unknown (glyph : String)
deriving DecidableEq

/-- The set of candidate readings an element of `by_sound` denotes. -/
def BySound.readings : BySound → Finset String
  | .label s => {s}
  | .options opts => opts
  | .unknown g => {g}

/-- The per-glyph decomposition block of `process_text` (tunic.py lines
259-292).  `SOUND_TRANSLATIONS` (curated data, not defined in tunic.py) is
modelled as an association list from glyph strings to labels. -/
def process_glyph (sound_translations : List (String × String))
    (subglyph_sounds : List (Finset Char × String)) (glyph : String) : BySound :=
  match sound_translations.find? (fun p => p.1 == glyph) with
  | some p => .label p.2
  | none =>
    if (possible_components subglyph_sounds (glyph.toList.toFinset)).isEmpty then
      .unknown glyph
    else
      .options (decompose_options subglyph_sounds (glyph.toList.toFinset))

-- ## Concrete fixtures

/-- The parse tree of the two-line one-section document
`"#hdr\n12\n12/34\n"` under `GRAMMAR`: one section headed `hdr` whose two
lines hold the words `12` and `12/34` (one word node per line, inlined). -/
def doc7 : Sec := Sec.mk "hdr" [Child.word ["12"], Child.word ["12", "34"]]

/-- The parse tree of `"#h\n12\n"`: section `h`, one line, one word `12`. -/
def doc_c1 : Sec := Sec.mk "h" [Child.word ["12"]]

/-- A sound table of five disjoint single-character components. -/
def tbl_c5 : List (Finset Char × String) :=
  [({'1'}, "a"), ({'2'}, "b"), ({'3'}, "c"), ({'4'}, "d"), ({'Q'}, "e")]

/-- The character set of the glyph `1234QW`. -/
def target_c5 : Finset Char := "1234QW".toList.toFinset

-- ## Basic facts about the canonicalizer

theorem glyph_ordering_inj_on_keyboard :
    ∀ a ∈ keyboard, ∀ b ∈ keyboard, glyph_ordering a = glyph_ordering b → a = b := by
  decide

theorem keepB_mem_keyboard {c : Char} (hc : glyphCharB c = true) (hk : keepB c = true) :
    c ∈ keyboard := by
  simp only [glyphCharB, Bool.or_eq_true, decide_eq_true_eq] at hc
  rcases hc with h | h
  · exact h
  · subst h; simp [keepB] at hk

theorem clean_glyph_toList (glyph : String) :
    (clean_glyph glyph).toList =
      List.insertionSort rle ((glyph.toList.filter keepB).dedup) := rfl

theorem mem_clean_glyph {c : Char} {x : String} :
    c ∈ (clean_glyph x).toList ↔ c ∈ x.toList ∧ keepB c = true := by
  rw [clean_glyph_toList]
  constructor
  · intro h
    have h2 := (List.perm_insertionSort rle ((x.toList.filter keepB).dedup)).mem_iff.mp h
    exact List.mem_filter.mp (List.mem_dedup.mp h2)
  · intro h
    exact (List.perm_insertionSort rle ((x.toList.filter keepB).dedup)).mem_iff.mpr
      (List.mem_dedup.mpr (List.mem_filter.mpr h))

theorem clean_glyph_nodup (x : String) : (clean_glyph x).toList.Nodup := by
  rw [clean_glyph_toList]
  exact (List.perm_insertionSort rle _).nodup_iff.mpr (List.nodup_dedup _)

theorem clean_glyph_sorted (x : String) : (clean_glyph x).toList.Sorted rle := by
  rw [clean_glyph_toList]
  exact List.sorted_insertionSort rle _

/-- Characters of a canonical glyph of a grammar-conforming token lie in the
16-character keyboard alphabet. -/
theorem clean_glyph_chars_keyboard {x : String} (hx : ∀ c ∈ x.toList, glyphCharB c = true)
    {c : Char} (hc : c ∈ (clean_glyph x).toList) : c ∈ keyboard := by
  rcases mem_clean_glyph.mp hc with ⟨hmem, hkeep⟩
  exact keepB_mem_keyboard (hx c hmem) hkeep

/-- Uniqueness of the sorted form: two permuted lists, both sorted by
`glyph_ordering`, are equal provided the rank function is injective on their
elements (which holds for alphabet characters). -/
theorem eq_of_perm_of_sorted_rle :
    ∀ (l₁ l₂ : List Char), List.Perm l₁ l₂ → l₁.Sorted rle → l₂.Sorted rle →
      (∀ a ∈ l₁, ∀ b ∈ l₁, glyph_ordering a = glyph_ordering b → a = b) → l₁ = l₂ := by
  intro l₁
  induction l₁ with
  | nil => intro l₂ hp _ _ _; exact hp.nil_eq
  | cons a t ih =>
    intro l₂ hp hs₁ hs₂ hinj
    cases l₂ with
    | nil => exact absurd hp.symm (by simp)
    | cons b t₂ =>
      have hab : a = b := by
        by_cases h : a = b
        · exact h
        · have hbt : b ∈ t := by
            have : b ∈ a :: t := hp.symm.subset (List.mem_cons_self b t₂)
            rcases List.mem_cons.mp this with h' | h'
            · exact absurd h'.symm h
            · exact h'
          have hat₂ : a ∈ t₂ := by
            have : a ∈ b :: t₂ := hp.subset (List.mem_cons_self a t)
            rcases List.mem_cons.mp this with h' | h'
            · exact absurd h' h
            · exact h'
          have h1 : rle a b := ((List.sorted_cons.mp hs₁).1 b hbt)
          have h2 : rle b a := ((List.sorted_cons.mp hs₂).1 a hat₂)
          exact hinj a (List.mem_cons_self a t) b (List.mem_cons_of_mem a hbt)
            (le_antisymm h1 h2)
      subst hab
      have hpt : List.Perm t t₂ := hp.cons_inv
      have het : t = t₂ := by
        refine ih t₂ hpt (List.sorted_cons.mp hs₁).2 (List.sorted_cons.mp hs₂).2 ?_
        intro x hx y hy
        exact hinj x (List.mem_cons_of_mem a hx) y (List.mem_cons_of_mem a hy)
      rw [het]

theorem keepB_iff (c : Char) : keepB c = true ↔ (c ≠ 'E' ∧ c ≠ 'C' ∧ c ≠ '-') := by
  simp [keepB, and_assoc]

theorem clean_glyph_idem (x : String) : clean_glyph (clean_glyph x) = clean_glyph x := by
  have hkeep : (clean_glyph x).toList.filter keepB = (clean_glyph x).toList :=
    List.filter_eq_self.mpr (fun c hc => (mem_clean_glyph.mp hc).2)
  have hnodup : ((clean_glyph x).toList.filter keepB).dedup = (clean_glyph x).toList := by
    rw [hkeep]
    exact (clean_glyph_nodup x).dedup
  show String.mk (List.insertionSort rle (((clean_glyph x).toList.filter keepB).dedup)) =
    clean_glyph x
  rw [hnodup, (clean_glyph_sorted x).insertionSort_eq]
  cases clean_glyph x
  rfl

theorem clean_glyph_perm {x y : String} (hx : ∀ c ∈ x.toList, glyphCharB c = true)
    (hp : List.Perm y.toList x.toList) : clean_glyph y = clean_glyph x := by
  apply congrArg String.mk
  apply eq_of_perm_of_sorted_rle
  · exact ((List.perm_insertionSort rle _).trans ((hp.filter keepB).dedup)).trans
      (List.perm_insertionSort rle _).symm
  · exact List.sorted_insertionSort rle _
  · exact List.sorted_insertionSort rle _
  · intro a ha b hb
    have ha' : a ∈ (clean_glyph y).toList := by rw [clean_glyph_toList]; exact ha
    have hb' : b ∈ (clean_glyph y).toList := by rw [clean_glyph_toList]; exact hb
    have hka : a ∈ keyboard := by
      rcases mem_clean_glyph.mp ha' with ⟨hmem, hkeep⟩
      exact keepB_mem_keyboard (hx a (hp.subset hmem)) hkeep
    have hkb : b ∈ keyboard := by
      rcases mem_clean_glyph.mp hb' with ⟨hmem, hkeep⟩
      exact keepB_mem_keyboard (hx b (hp.subset hmem)) hkeep
    exact glyph_ordering_inj_on_keyboard a hka b hkb

-- ## Claim C2

/-- C2: over the glyph alphabet, canonicalization (`clean_glyph`) is
idempotent — `clean_glyph (clean_glyph x) = clean_glyph x` — and
order-independent: any permutation of the characters of `x` canonicalizes to
the same string.  (Determinism is inherent: `clean_glyph` is a function.) -/
theorem clean_glyph_idem_and_order_independent (x : String)
    (hx : ∀ c ∈ x.toList, glyphCharB c = true) :
    clean_glyph (clean_glyph x) = clean_glyph x ∧
      ∀ y : String, List.Perm y.toList x.toList → clean_glyph y = clean_glyph x :=
  ⟨clean_glyph_idem x, fun _ hp => clean_glyph_perm hx hp⟩

/-- Witness for C2 at the concrete input `"4-1QE2"` (and, for the inner
permutation clause, any permutation of it). -/
theorem clean_glyph_idem_and_order_independent_witness :
    (∀ c ∈ ("4-1QE2" : String).toList, glyphCharB c = true) ∧
      (clean_glyph (clean_glyph "4-1QE2") = clean_glyph "4-1QE2" ∧
        ∀ y : String, List.Perm y.toList ("4-1QE2" : String).toList →
          clean_glyph y = clean_glyph "4-1QE2") :=
  ⟨by decide, clean_glyph_idem_and_order_independent "4-1QE2" (by decide)⟩

-- ## Claim C8

/-- C8: over the glyph alphabet, the canonical key is a duplicate-free string,
sorted by the fixed rank table `glyph_ordering`, whose characters are exactly
the input's characters with the separator `-` and the linking characters `E`
and `C` removed. -/
theorem clean_glyph_canonical_form (x : String)
    (_hx : ∀ c ∈ x.toList, glyphCharB c = true) :
    (clean_glyph x).toList.Nodup ∧ (clean_glyph x).toList.Sorted rle ∧
      ∀ c : Char, c ∈ (clean_glyph x).toList ↔
        (c ∈ x.toList ∧ c ≠ 'E' ∧ c ≠ 'C' ∧ c ≠ '-') := by
  refine ⟨clean_glyph_nodup x, clean_glyph_sorted x, fun c => ?_⟩
  rw [mem_clean_glyph, keepB_iff]

/-- Witness for C8 at the concrete input `"4W-32QC4"`. -/
theorem clean_glyph_canonical_form_witness :
    (∀ c ∈ ("4W-32QC4" : String).toList, glyphCharB c = true) ∧
      ((clean_glyph "4W-32QC4").toList.Nodup ∧
        (clean_glyph "4W-32QC4").toList.Sorted rle ∧
        ∀ c : Char, c ∈ (clean_glyph "4W-32QC4").toList ↔
          (c ∈ ("4W-32QC4" : String).toList ∧ c ≠ 'E' ∧ c ≠ 'C' ∧ c ≠ '-')) :=
  ⟨by decide, clean_glyph_canonical_form "4W-32QC4" (by decide)⟩

-- ## Claim C10

/-- C10: a glyph token accepted by the grammar whose characters are all drawn
from the stripped characters `E`, `C` and `-` canonicalizes to the empty
string, even though the token itself is non-empty. -/
theorem clean_glyph_empty_on_stripped (x : String)
    (hok : glyphTokenOK x = true)
    (hall : ∀ c ∈ x.toList, c = 'E' ∨ c = 'C' ∨ c = '-') :
    clean_glyph x = "" ∧ x ≠ "" := by
  constructor
  · have hfilter : x.toList.filter keepB = [] := by
      rw [List.filter_eq_nil_iff]
      intro c hc hkeep
      rcases hall c hc with h | h | h <;> (subst h; simp [keepB] at hkeep)
    show String.mk (List.insertionSort rle ((x.toList.filter keepB).dedup)) = ""
    rw [hfilter]
    rfl
  · intro hempty
    subst hempty
    simp [glyphTokenOK, String.isEmpty] at hok

/-- Witness for C10 at the concrete grammar-accepted token `"E-C"`. -/
theorem clean_glyph_empty_on_stripped_witness :
    (glyphTokenOK "E-C" = true ∧ ∀ c ∈ ("E-C" : String).toList, c = 'E' ∨ c = 'C' ∨ c = '-') ∧
      (clean_glyph "E-C" = "" ∧ "E-C" ≠ "") :=
  ⟨⟨by decide, by decide⟩, clean_glyph_empty_on_stripped "E-C" (by decide) (by decide)⟩

-- ## State evolution lemmas

theorem dinsert_mono (m : String → Finset String) (k v x : String) :
    m x ⊆ dinsert m k v x := by
  unfold dinsert
  by_cases h : x = k
  · subst h
    simp [Finset.subset_insert]
  · simp [h]

theorem dinsert_mem (m : String → Finset String) (k v : String) :
    v ∈ dinsert m k v k := by
  simp [dinsert]

theorem foldl_addGlyphOcc_words (w : String) :
    ∀ (l : List String) (st : St),
      (l.foldl (addGlyphOcc w) st).found_words = st.found_words
  | [], _ => rfl
  | g :: rest, st => by
    rw [List.foldl_cons, foldl_addGlyphOcc_words w rest]
    rfl

theorem foldl_addGlyphOcc_mono (w : String) :
    ∀ (l : List String) (st : St) (k : String),
      st.found_glyphs k ⊆ (l.foldl (addGlyphOcc w) st).found_glyphs k
  | [], _, _ => subset_rfl
  | g :: rest, st, k => by
    rw [List.foldl_cons]
    have h2 := foldl_addGlyphOcc_mono w rest (addGlyphOcc w st g) k
    exact (dinsert_mono st.found_glyphs g w k).trans h2

theorem foldl_addGlyphOcc_mem (w : String) :
    ∀ (l : List String) (st : St) (g : String), g ∈ l →
      w ∈ (l.foldl (addGlyphOcc w) st).found_glyphs g
  | [], _, g, hg => absurd hg (List.not_mem_nil g)
  | g' :: rest, st, g, hg => by
    rw [List.foldl_cons]
    rcases List.mem_cons.mp hg with h | h
    · subst h
      exact foldl_addGlyphOcc_mono w rest _ g (dinsert_mem st.found_glyphs g w)
    · exact foldl_addGlyphOcc_mem w rest _ g h

theorem foldl_addWordLoc_glyphs (line : String) :
    ∀ (l : List String) (st : St),
      (l.foldl (addWordLoc line) st).found_glyphs = st.found_glyphs
  | [], _ => rfl
  | w :: rest, st => by
    rw [List.foldl_cons, foldl_addWordLoc_glyphs line rest]
    rfl

theorem foldl_addWordLoc_mono (line : String) :
    ∀ (l : List String) (st : St) (k : String),
      st.found_words k ⊆ (l.foldl (addWordLoc line) st).found_words k
  | [], _, _ => subset_rfl
  | w :: rest, st, k => by
    rw [List.foldl_cons]
    have h2 := foldl_addWordLoc_mono line rest (addWordLoc line st w) k
    exact (dinsert_mono st.found_words w line k).trans h2

theorem foldl_addWordLoc_mem (line : String) :
    ∀ (l : List String) (st : St) (w : String), w ∈ l →
      line ∈ (l.foldl (addWordLoc line) st).found_words w
  | [], _, w, hw => absurd hw (List.not_mem_nil w)
  | w' :: rest, st, w, hw => by
    rw [List.foldl_cons]
    rcases List.mem_cons.mp hw with h | h
    · subst h
      exact foldl_addWordLoc_mono line rest _ w (dinsert_mem st.found_words w line)
    · exact foldl_addWordLoc_mem line rest _ w h

theorem word_cb_words (gs : List String) (st : St) :
    (word_cb gs st).found_words = st.found_words :=
  foldl_addGlyphOcc_words _ _ st

theorem word_cb_mono (gs : List String) (st : St) (k : String) :
    st.found_glyphs k ⊆ (word_cb gs st).found_glyphs k :=
  foldl_addGlyphOcc_mono _ _ st k

theorem word_cb_mem (gs : List String) (st : St) {raw : String} (hraw : raw ∈ gs) :
    wordString gs ∈ (word_cb gs st).found_glyphs (clean_glyph raw) :=
  foldl_addGlyphOcc_mem _ _ st _ (List.mem_map_of_mem clean_glyph hraw)

theorem processSec_found_glyphs (h : String) (cs : List Child) (st : St) :
    ((processSec (Sec.mk h cs) st).2).found_glyphs =
      ((processChildren cs st).2).found_glyphs :=
  foldl_addWordLoc_glyphs _ _ _

theorem processSec_found_words (h : String) (cs : List Child) (st : St) :
    ((processSec (Sec.mk h cs) st).2).found_words =
      ((cs.filterMap childWord).foldl (addWordLoc (Sec.line (Sec.mk h cs)))
        ((processChildren cs st).2)).found_words := rfl

mutual
theorem processChildren_glyphs_mono : ∀ (cs : List Child) (st : St) (k : String),
    st.found_glyphs k ⊆ ((processChildren cs st).2).found_glyphs k
  | [], _, _ => subset_rfl
  | .lit _ :: rest, st, k => processChildren_glyphs_mono rest st k
  | .word gs :: rest, st, k =>
    (word_cb_mono gs st k).trans (processChildren_glyphs_mono rest (word_cb gs st) k)
  | .sub s :: rest, st, k =>
    (processSec_glyphs_mono s st k).trans
      (processChildren_glyphs_mono rest (processSec s st).2 k)
theorem processSec_glyphs_mono : ∀ (sec : Sec) (st : St) (k : String),
    st.found_glyphs k ⊆ ((processSec sec st).2).found_glyphs k
  | .mk h cs, st, k => by
    rw [processSec_found_glyphs]
    exact processChildren_glyphs_mono cs st k
end

mutual
theorem processChildren_words_mono : ∀ (cs : List Child) (st : St) (k : String),
    st.found_words k ⊆ ((processChildren cs st).2).found_words k
  | [], _, _ => subset_rfl
  | .lit _ :: rest, st, k => processChildren_words_mono rest st k
  | .word gs :: rest, st, k => by
    have h := processChildren_words_mono rest (word_cb gs st) k
    rwa [word_cb_words] at h
  | .sub s :: rest, st, k =>
    (processSec_words_mono s st k).trans
      (processChildren_words_mono rest (processSec s st).2 k)
theorem processSec_words_mono : ∀ (sec : Sec) (st : St) (k : String),
    st.found_words k ⊆ ((processSec sec st).2).found_words k
  | .mk h cs, st, k => by
    have h1 := processChildren_words_mono cs st k
    have h2 := foldl_addWordLoc_mono (Sec.line (Sec.mk h cs)) (cs.filterMap childWord)
      (processChildren cs st).2 k
    exact h1.trans h2
end

theorem processChildren_word_mem : ∀ (cs : List Child) (st : St) (gs : List String),
    Child.word gs ∈ cs → ∀ raw ∈ gs,
      wordString gs ∈ ((processChildren cs st).2).found_glyphs (clean_glyph raw)
  | [], _, _, hmem => absurd hmem (List.not_mem_nil _)
  | c :: rest, st, gs, hmem => by
    intro raw hraw
    rcases List.mem_cons.mp hmem with h | h
    · rw [← h]
      exact processChildren_glyphs_mono rest (word_cb gs st) (clean_glyph raw)
        (word_cb_mem gs st hraw)
    · cases c with
      | lit t => exact processChildren_word_mem rest st gs h raw hraw
      | word gs2 => exact processChildren_word_mem rest (word_cb gs2 st) gs h raw hraw
      | sub s => exact processChildren_word_mem rest (processSec s st).2 gs h raw hraw

mutual
theorem processSec_contrib : ∀ (sec : Sec) (st : St) (s2 : Sec), s2 ∈ Sec.allSecs sec →
    ∀ gs : List String, Child.word gs ∈ Sec.children s2 →
      Sec.line s2 ∈ ((processSec sec st).2).found_words (wordString gs) ∧
        ∀ raw ∈ gs, wordString gs ∈ ((processSec sec st).2).found_glyphs (clean_glyph raw)
  | .mk h cs, st, s2, hs2, gs, hgs => by
    have hs2c : s2 ∈ Sec.mk h cs :: childrenSecs cs := hs2
    rcases List.mem_cons.mp hs2c with he | he
    · subst he
      constructor
      · have hin : wordString gs ∈ cs.filterMap childWord :=
          List.mem_filterMap.mpr ⟨Child.word gs, hgs, rfl⟩
        exact foldl_addWordLoc_mem (Sec.line (Sec.mk h cs)) (cs.filterMap childWord)
          (processChildren cs st).2 (wordString gs) hin
      · intro raw hraw
        rw [processSec_found_glyphs]
        exact processChildren_word_mem cs st gs hgs raw hraw
    · have h1 := processChildren_contrib cs st s2 he gs hgs
      constructor
      · exact foldl_addWordLoc_mono (Sec.line (Sec.mk h cs)) (cs.filterMap childWord)
          (processChildren cs st).2 (wordString gs) h1.1
      · intro raw hraw
        rw [processSec_found_glyphs]
        exact h1.2 raw hraw
theorem processChildren_contrib : ∀ (cs : List Child) (st : St) (s2 : Sec),
    s2 ∈ childrenSecs cs → ∀ gs : List String, Child.word gs ∈ Sec.children s2 →
      Sec.line s2 ∈ ((processChildren cs st).2).found_words (wordString gs) ∧
        ∀ raw ∈ gs, wordString gs ∈ ((processChildren cs st).2).found_glyphs (clean_glyph raw)
  | [], _, _, hs2, _, _ => absurd hs2 (List.not_mem_nil _)
  | .lit t :: rest, st, s2, hs2, gs, hgs => processChildren_contrib rest st s2 hs2 gs hgs
  | .word gs2 :: rest, st, s2, hs2, gs, hgs =>
    processChildren_contrib rest (word_cb gs2 st) s2 hs2 gs hgs
  | .sub s :: rest, st, s2, hs2, gs, hgs => by
    have hs2a : s2 ∈ Sec.allSecs s ++ childrenSecs rest := hs2
    rcases List.mem_append.mp hs2a with h | h
    · have h1 := processSec_contrib s st s2 h gs hgs
      exact ⟨processChildren_words_mono rest (processSec s st).2 (wordString gs) h1.1,
        fun raw hraw => processChildren_glyphs_mono rest (processSec s st).2
          (clean_glyph raw) (h1.2 raw hraw)⟩
    · exact processChildren_contrib rest (processSec s st).2 s2 h gs hgs
end

-- ## Preservation of the glyph index shape invariant

theorem clean_glyph_no_slash {raw : String} (hok : glyphTokenOK raw = true) :
    ∀ c ∈ (clean_glyph raw).toList, c ≠ '/' := by
  intro c hc
  have hall : ∀ d ∈ raw.toList, glyphCharB d = true := by
    have h2 := ((Bool.and_eq_true _ _).mp hok).2
    exact fun d hd => List.all_eq_true.mp h2 d hd
  have hk : c ∈ keyboard := clean_glyph_chars_keyboard hall hc
  intro he
  subst he
  revert hk
  decide

theorem GInv_of_eq {st1 st2 : St} (h : st1.found_glyphs = st2.found_glyphs)
    (hinv : GInv st2) : GInv st1 := by
  intro g w hw
  rw [h] at hw
  exact hinv g w hw

theorem addGlyphOcc_GInv {gs : List String} {st : St} {g : String}
    (hg : g ∈ gs.map clean_glyph)
    (hslash : ∀ p ∈ gs.map clean_glyph, ∀ c ∈ p.toList, c ≠ '/')
    (hinv : GInv st) : GInv (addGlyphOcc (wordString gs) st g) := by
  intro g2 w hw
  simp only [addGlyphOcc, dinsert] at hw
  by_cases he : g2 = g
  · rw [if_pos he] at hw
    rcases Finset.mem_insert.mp hw with h | h
    · subst h
      exact ⟨gs, rfl, he ▸ hg, hslash⟩
    · exact hinv g2 w (by rw [he]; exact h)
  · rw [if_neg he] at hw
    exact hinv g2 w hw

theorem foldl_addGlyphOcc_GInv (gs : List String)
    (hslash : ∀ p ∈ gs.map clean_glyph, ∀ c ∈ p.toList, c ≠ '/') :
    ∀ (l : List String) (st : St), (∀ g ∈ l, g ∈ gs.map clean_glyph) → GInv st →
      GInv (l.foldl (addGlyphOcc (wordString gs)) st)
  | [], _, _, hinv => hinv
  | g :: rest, st, hl, hinv => by
    rw [List.foldl_cons]
    exact foldl_addGlyphOcc_GInv gs hslash rest (addGlyphOcc (wordString gs) st g)
      (fun g2 hg2 => hl g2 (List.mem_cons_of_mem g hg2))
      (addGlyphOcc_GInv (hl g (List.mem_cons_self g rest)) hslash hinv)

theorem word_cb_GInv {gs : List String} {st : St} (hgs : gs.all glyphTokenOK = true)
    (hinv : GInv st) : GInv (word_cb gs st) := by
  have hslash : ∀ p ∈ gs.map clean_glyph, ∀ c ∈ p.toList, c ≠ '/' := by
    intro p hp c hc
    rcases List.mem_map.mp hp with ⟨raw, hraw, he⟩
    subst he
    exact clean_glyph_no_slash (List.all_eq_true.mp hgs raw hraw) c hc
  exact foldl_addGlyphOcc_GInv gs hslash (gs.map clean_glyph) st (fun g hg => hg) hinv

mutual
theorem processChildren_GInv : ∀ (cs : List Child) (st : St), childrenWF cs = true →
    GInv st → GInv ((processChildren cs st).2)
  | [], _, _, hinv => hinv
  | .lit _ :: rest, st, hwf, hinv => processChildren_GInv rest st hwf hinv
  | .word gs :: rest, st, hwf, hinv => by
    have hwf2 : (gs.all glyphTokenOK && childrenWF rest) = true := hwf
    rw [Bool.and_eq_true] at hwf2
    exact processChildren_GInv rest (word_cb gs st) hwf2.2 (word_cb_GInv hwf2.1 hinv)
  | .sub s :: rest, st, hwf, hinv => by
    have hwf2 : (Sec.wf s && childrenWF rest) = true := hwf
    rw [Bool.and_eq_true] at hwf2
    exact processChildren_GInv rest (processSec s st).2 hwf2.2
      (processSec_GInv s st hwf2.1 hinv)
theorem processSec_GInv : ∀ (sec : Sec) (st : St), Sec.wf sec = true → GInv st →
    GInv ((processSec sec st).2)
  | .mk h cs, st, hwf, hinv =>
    GInv_of_eq (processSec_found_glyphs h cs st) (processChildren_GInv cs st hwf hinv)
end

theorem GInv_init : GInv St.init := by
  intro g w hw
  exact absurd hw (Finset.not_mem_empty w)

theorem foldl_process_GInv : ∀ (docs : List Sec) (st : St),
    (∀ d ∈ docs, Sec.wf d = true) → GInv st →
    GInv (docs.foldl (fun st d => (processSec d st).2) st)
  | [], _, _, hinv => hinv
  | d :: rest, st, hwf, hinv => by
    rw [List.foldl_cons]
    exact foldl_process_GInv rest (processSec d st).2
      (fun d2 hd2 => hwf d2 (List.mem_cons_of_mem d hd2))
      (processSec_GInv d st (hwf d (List.mem_cons_self d rest)) hinv)

theorem foldl_process_glyphs_mono : ∀ (docs : List Sec) (st : St) (k : String),
    st.found_glyphs k ⊆ (docs.foldl (fun st d => (processSec d st).2) st).found_glyphs k
  | [], _, _ => subset_rfl
  | d :: rest, st, k => by
    rw [List.foldl_cons]
    exact (processSec_glyphs_mono d st k).trans
      (foldl_process_glyphs_mono rest (processSec d st).2 k)

theorem foldl_process_contrib : ∀ (docs : List Sec) (st : St) (d : Sec), d ∈ docs →
    ∀ s2 ∈ Sec.allSecs d, ∀ gs : List String, Child.word gs ∈ Sec.children s2 →
      ∀ raw ∈ gs, wordString gs ∈
        (docs.foldl (fun st d => (processSec d st).2) st).found_glyphs (clean_glyph raw)
  | [], _, _, hd => absurd hd (List.not_mem_nil _)
  | d2 :: rest, st, d, hd => by
    intro s2 hs2 gs hgs raw hraw
    rw [List.foldl_cons]
    rcases List.mem_cons.mp hd with h | h
    · subst h
      exact foldl_process_glyphs_mono rest (processSec d st).2 (clean_glyph raw)
        ((processSec_contrib d st s2 hs2 gs hgs).2 raw hraw)
    · exact foldl_process_contrib rest (processSec d2 st).2 d h s2 hs2 gs hgs raw hraw

-- ## Claim C1

/-- C1 counterexample: for the document `"#h\n12\n"` (section `h`, one line
at position 1 holding the word `12`), the word index maps `12` to the set
`{"12"}` — the section's joined line text — and not to any provenance
descriptor of the form `"{section}, line {position}"` (`"h, line 0"` and
`"h, line 1"` are both absent).  The code stores `whole_line`, the section's
entire joined text, as the location value. -/
theorem found_words_value_is_line_text_not_descriptor :
    (processSec doc_c1 St.init).2.found_words "12" = {"12"} ∧
      "h, line 0" ∉ (processSec doc_c1 St.init).2.found_words "12" ∧
      "h, line 1" ∉ (processSec doc_c1 St.init).2.found_words "12" := by
  decide

/-- C1 (amended): for every Word in the parsed tree, the indexer records,
under the word-to-locations mapping keyed by the Word's canonical string,
the enclosing section's whole joined text (`whole_line`, the
space-separated join of all of that section's word strings and bracketed
literals) — not a `"{section}, line {position}"` descriptor — and, for each
Glyph of the Word, it records the Word's canonical string under the
glyph-to-containing-words mapping keyed by that Glyph's canonical form. -/
theorem indexer_records_words_and_glyphs (doc : Sec) (st : St) (s2 : Sec)
    (hs2 : s2 ∈ Sec.allSecs doc) (gs : List String)
    (hgs : Child.word gs ∈ Sec.children s2) :
    Sec.line s2 ∈ ((processSec doc st).2).found_words (wordString gs) ∧
      ∀ raw ∈ gs, wordString gs ∈ ((processSec doc st).2).found_glyphs (clean_glyph raw) :=
  processSec_contrib doc st s2 hs2 gs hgs

/-- Witness for the amended C1 at the concrete document `doc7` and its word
`12`. -/
theorem indexer_records_words_and_glyphs_witness :
    doc7 ∈ Sec.allSecs doc7 ∧ Child.word ["12"] ∈ Sec.children doc7 ∧
      (Sec.line doc7 ∈ ((processSec doc7 St.init).2).found_words (wordString ["12"]) ∧
        ∀ raw ∈ ["12"], wordString ["12"] ∈
          ((processSec doc7 St.init).2).found_glyphs (clean_glyph raw)) :=
  ⟨List.mem_singleton.mpr rfl, List.mem_cons_self _ _,
    indexer_records_words_and_glyphs doc7 St.init doc7 (List.mem_singleton.mpr rfl) ["12"]
      (List.mem_cons_self _ _)⟩

-- ## Claim C9

/-- C9: after processing any grammar-conforming corpus from the initial
state, the glyph index is sound and complete: every word stored under a
glyph key is the `/`-join of a list of canonical glyph components of which
the key is one (and no component contains `/`, so the key occurs among the
word's `/`-separated components); conversely, every canonical glyph of
every word of the corpus maps to a set containing that word's canonical
string. -/
theorem glyph_index_bidirectional_invariant (docs : List Sec)
    (hwf : ∀ d ∈ docs, Sec.wf d = true) :
    (∀ g w, w ∈ (processCorpus docs).found_glyphs g →
        ∃ raws : List String, w = String.intercalate "/" (raws.map clean_glyph) ∧
          g ∈ raws.map clean_glyph ∧
          ∀ p ∈ raws.map clean_glyph, ∀ c ∈ p.toList, c ≠ '/') ∧
      ∀ d ∈ docs, ∀ s2 ∈ Sec.allSecs d, ∀ gs : List String,
        Child.word gs ∈ Sec.children s2 → ∀ raw ∈ gs,
          wordString gs ∈ (processCorpus docs).found_glyphs (clean_glyph raw) := by
  constructor
  · exact foldl_process_GInv docs St.init hwf GInv_init
  · intro d hd s2 hs2 gs hgs raw hraw
    exact foldl_process_contrib docs St.init d hd s2 hs2 gs hgs raw hraw

/-- Witness for C9 at the concrete one-document corpus `[doc7]`. -/
theorem glyph_index_bidirectional_invariant_witness :
    (∀ d ∈ [doc7], Sec.wf d = true) ∧
      ((∀ g w, w ∈ (processCorpus [doc7]).found_glyphs g →
          ∃ raws : List String, w = String.intercalate "/" (raws.map clean_glyph) ∧
            g ∈ raws.map clean_glyph ∧
            ∀ p ∈ raws.map clean_glyph, ∀ c ∈ p.toList, c ≠ '/') ∧
        ∀ d ∈ [doc7], ∀ s2 ∈ Sec.allSecs d, ∀ gs : List String,
          Child.word gs ∈ Sec.children s2 → ∀ raw ∈ gs,
            wordString gs ∈ (processCorpus [doc7]).found_glyphs (clean_glyph raw)) :=
  ⟨by decide, glyph_index_bidirectional_invariant [doc7] (by decide)⟩

-- ## Claim C7

/-- C7: the transformer output for the well-formed document `"#hdr\n12\n12/34\n"`
(one section header, then two lines holding the words `12` and `12/34`) is a
singleton section list — header `hdr`, no subsections, and the two lines'
word strings as its text in order — and, after indexing, the word `12` maps
to exactly one location (the joined line text `"12 12/34"`) while the glyph
`12` maps to exactly the word set `{"12", "12/34"}`. -/
theorem two_line_document_parse_and_index :
    (processStart doc7 St.init).1.map SDict.header = ["hdr"] ∧
      (processStart doc7 St.init).1.map (fun d => d.subsections.length) = [0] ∧
      (processStart doc7 St.init).1.map SDict.text = [["12", "12/34"]] ∧
      ((processStart doc7 St.init).2.found_words "12").card = 1 ∧
      (processStart doc7 St.init).2.found_words "12" = {"12 12/34"} ∧
      (processStart doc7 St.init).2.found_glyphs "12" = {"12", "12/34"} := by
  decide

-- ## Claim C6

/-- C6: for every index mapping (item list) and positive `n`,
`points_of_interest` returns exactly the entries whose value set has at
least `n` elements; it returns the empty mapping when no entry qualifies;
and with `n = 2` an entry of the input is kept exactly when its value set
has two or more elements (so every cardinality-one entry is excluded).  It
is a pure function of its input. -/
theorem points_of_interest_threshold (search_space : List (String × Finset String)) (n : Nat)
    (_hn : 0 < n) :
    (∀ kv : String × Finset String,
        kv ∈ points_of_interest search_space n ↔ kv ∈ search_space ∧ n ≤ kv.2.card) ∧
      ((∀ kv ∈ search_space, kv.2.card < n) → points_of_interest search_space n = []) ∧
      (∀ kv ∈ search_space, kv ∈ points_of_interest search_space 2 ↔ 2 ≤ kv.2.card) := by
  refine ⟨fun kv => ?_, fun h => ?_, fun kv hkv => ?_⟩
  · rw [points_of_interest, List.mem_filter, decide_eq_true_eq]
  · rw [points_of_interest, List.filter_eq_nil_iff]
    intro kv hkv
    rw [decide_eq_true_eq]
    exact Nat.not_le.mpr (h kv hkv)
  · rw [points_of_interest, List.mem_filter, decide_eq_true_eq]
    simp [hkv]

/-- Witness for C6 at a concrete two-entry index with `n = 2`. -/
theorem points_of_interest_threshold_witness :
    0 < 2 ∧
      ((∀ kv : String × Finset String,
          kv ∈ points_of_interest ([("a", {"x"}), ("b", {"x", "y"})] : List (String × Finset String)) 2 ↔
            kv ∈ ([("a", {"x"}), ("b", {"x", "y"})] : List (String × Finset String)) ∧ 2 ≤ kv.2.card) ∧
        ((∀ kv ∈ ([("a", {"x"}), ("b", {"x", "y"})] : List (String × Finset String)), kv.2.card < 2) →
          points_of_interest ([("a", {"x"}), ("b", {"x", "y"})] : List (String × Finset String)) 2 = []) ∧
        (∀ kv ∈ ([("a", {"x"}), ("b", {"x", "y"})] : List (String × Finset String)),
          kv ∈ points_of_interest ([("a", {"x"}), ("b", {"x", "y"})] : List (String × Finset String)) 2 ↔ 2 ≤ kv.2.card)) :=
  ⟨by decide, points_of_interest_threshold ([("a", {"x"}), ("b", {"x", "y"})] : List (String × Finset String)) 2 (by decide)⟩

-- ## The decomposition search

theorem process_glyph_eq_unknown {sound_translations : List (String × String)}
    {subglyph_sounds : List (Finset Char × String)} {glyph : String}
    (h1 : sound_translations.find? (fun p => p.1 == glyph) = none)
    (h2 : possible_components subglyph_sounds glyph.toList.toFinset = []) :
    process_glyph sound_translations subglyph_sounds glyph = BySound.unknown glyph := by
  unfold process_glyph
  rw [h1, h2]
  rfl

theorem process_glyph_eq_options {sound_translations : List (String × String)}
    {subglyph_sounds : List (Finset Char × String)} {glyph : String}
    (h1 : sound_translations.find? (fun p => p.1 == glyph) = none)
    (h2 : possible_components subglyph_sounds glyph.toList.toFinset ≠ []) :
    process_glyph sound_translations subglyph_sounds glyph =
      BySound.options (decompose_options subglyph_sounds glyph.toList.toFinset) := by
  unfold process_glyph
  rw [h1]
  have hf : (possible_components subglyph_sounds glyph.toList.toFinset).isEmpty = false :=
    Bool.eq_false_iff.mpr (fun ht => h2 (List.isEmpty_iff.mp ht))
  rw [hf]
  rfl

-- ## Claim C4

/-- C4: when a canonical glyph has no exact entry in the sound translation
table and no sound-table key's character set is a strict subset of the
glyph's character set, the decomposition block yields exactly the glyph
itself as the sole reading — passthrough, not an error (the embedding is a
total function). -/
theorem decompose_no_candidates (sound_translations : List (String × String))
    (subglyph_sounds : List (Finset Char × String)) (glyph : String)
    (h1 : sound_translations.find? (fun p => p.1 == glyph) = none)
    (h2 : ∀ rep ∈ subglyph_sounds, ¬ rep.1 ⊂ glyph.toList.toFinset) :
    process_glyph sound_translations subglyph_sounds glyph = BySound.unknown glyph ∧
      (process_glyph sound_translations subglyph_sounds glyph).readings = {glyph} := by
  have h2e : possible_components subglyph_sounds glyph.toList.toFinset = [] := by
    rw [possible_components, List.filter_eq_nil_iff]
    intro rep hrep
    simp only [decide_eq_true_eq]
    exact h2 rep hrep
  refine ⟨process_glyph_eq_unknown h1 h2e, ?_⟩
  rw [process_glyph_eq_unknown h1 h2e]
  rfl

/-- Witness for C4: the glyph `12` against a sound table whose only
component `{Q}` is not a subset of `{1, 2}`. -/
theorem decompose_no_candidates_witness :
    (([("A", "x")] : List (String × String)).find? (fun p => p.1 == "12") = none) ∧
      (∀ rep ∈ ([({'Q'}, "q")] : List (Finset Char × String)),
        ¬ rep.1 ⊂ ("12" : String).toList.toFinset) ∧
      (process_glyph [("A", "x")] [({'Q'}, "q")] "12" = BySound.unknown "12" ∧
        (process_glyph [("A", "x")] [({'Q'}, "q")] "12").readings = {"12"}) :=
  ⟨by decide, by decide,
    decompose_no_candidates [("A", "x")] [({'Q'}, "q")] "12" (by decide) (by decide)⟩

-- ## Claim C3

/-- C3: when a glyph's character set is exactly the union of two disjoint,
non-empty sound-table keys, and the glyph is not itself a key of the sound
translation table, the decomposition search returns a reading set containing
the `_`-joined concatenation of the two keys' labels in at least one order. -/
theorem decompose_union_of_disjoint_components
    (sound_translations : List (String × String))
    (subglyph_sounds : List (Finset Char × String)) (glyph : String)
    (k1 k2 : Finset Char) (l1 l2 : String)
    (h1 : sound_translations.find? (fun p => p.1 == glyph) = none)
    (hm1 : (k1, l1) ∈ subglyph_sounds) (hm2 : (k2, l2) ∈ subglyph_sounds)
    (hd : k1 ∩ k2 = ∅) (hn1 : k1.Nonempty) (hn2 : k2.Nonempty)
    (hu : glyph.toList.toFinset = k1 ∪ k2) :
    String.intercalate "_" [l1, l2] ∈
        (process_glyph sound_translations subglyph_sounds glyph).readings ∨
      String.intercalate "_" [l2, l1] ∈
        (process_glyph sound_translations subglyph_sounds glyph).readings := by
  have hdisj : Disjoint k1 k2 := Finset.disjoint_iff_inter_eq_empty.mpr hd
  have hnotin2 : ∀ x ∈ k2, x ∉ k1 := by
    intro x hx hx1
    have hmem : x ∈ k1 ∩ k2 := Finset.mem_inter.mpr ⟨hx1, hx⟩
    rw [hd] at hmem
    exact absurd hmem (Finset.not_mem_empty x)
  have hnotin1 : ∀ x ∈ k1, x ∉ k2 := fun x hx hx2 => hnotin2 x hx2 hx
  obtain ⟨x1, hx1⟩ := id hn1
  obtain ⟨x2, hx2⟩ := id hn2
  have hss1 : k1 ⊂ k1 ∪ k2 :=
    (Finset.ssubset_iff_of_subset Finset.subset_union_left).mpr
      ⟨x2, Finset.mem_union_right k1 hx2, hnotin2 x2 hx2⟩
  have hss2 : k2 ⊂ k1 ∪ k2 :=
    (Finset.ssubset_iff_of_subset Finset.subset_union_right).mpr
      ⟨x1, Finset.mem_union_left k2 hx1, hnotin1 x1 hx1⟩
  have hkne : k1 ≠ k2 := by
    intro he
    rw [he, Finset.inter_self] at hd
    rw [hd] at hx2
    exact absurd hx2 (Finset.not_mem_empty x2)
  have hp1 : (k1, l1) ∈ possible_components subglyph_sounds (k1 ∪ k2) :=
    List.mem_filter.mpr ⟨hm1, decide_eq_true hss1⟩
  have hp2 : (k2, l2) ∈ possible_components subglyph_sounds (k1 ∪ k2) :=
    List.mem_filter.mpr ⟨hm2, decide_eq_true hss2⟩
  have hpne : ((k2, l2) : Finset Char × String) ≠ (k1, l1) := by
    intro he
    exact hkne (congrArg Prod.fst he).symm
  have hstep1 := List.perm_cons_erase hp1
  have hp2e := (List.mem_cons.mp (hstep1.subset hp2)).resolve_left hpne
  have hstep2 := List.perm_cons_erase hp2e
  have hperm := hstep1.trans ((hstep2.cons ((k1, l1) : Finset Char × String)))
  have hseq := List.mem_permutations'.mpr hperm.symm
  have e1 : (k1 ∪ k2) \ k1 = k2 := Finset.union_sdiff_cancel_left hdisj
  have hext : ∀ rest : List (Finset Char × String),
      extract ((k1, l1) :: (k2, l2) :: rest) (k1 ∪ k2) [] = [l1, l2] := by
    intro rest
    rw [extract, if_pos Finset.subset_union_left, e1,
      if_neg (Finset.nonempty_iff_ne_empty.mp hn2)]
    rw [extract, if_pos (Finset.Subset.refl k2), if_pos (Finset.sdiff_self k2)]
    rfl
  have hne_nil : possible_components subglyph_sounds glyph.toList.toFinset ≠ [] := by
    rw [hu]
    exact List.ne_nil_of_mem hp1
  left
  rw [process_glyph_eq_options h1 hne_nil]
  show String.intercalate "_" [l1, l2] ∈
    decompose_options subglyph_sounds glyph.toList.toFinset
  unfold decompose_options
  rw [hu, List.mem_toFinset]
  refine List.mem_map.mpr ⟨_, hseq, ?_⟩
  show String.intercalate "_" (extract _ (k1 ∪ k2) []) = String.intercalate "_" [l1, l2]
  rw [hext _]

/-- Witness for C3: the glyph `12` whose character set is the disjoint union
of the table keys `{1}` (label `a`) and `{2}` (label `b`). -/
theorem decompose_union_of_disjoint_components_witness :
    (([] : List (String × String)).find? (fun p => p.1 == "12") = none) ∧
      (({'1'}, "a") ∈ ([({'1'}, "a"), ({'2'}, "b")] : List (Finset Char × String))) ∧
      (({'2'}, "b") ∈ ([({'1'}, "a"), ({'2'}, "b")] : List (Finset Char × String))) ∧
      (({'1'} : Finset Char) ∩ {'2'} = ∅) ∧
      ({'1'} : Finset Char).Nonempty ∧ ({'2'} : Finset Char).Nonempty ∧
      (("12" : String).toList.toFinset = ({'1'} : Finset Char) ∪ {'2'}) ∧
      (String.intercalate "_" ["a", "b"] ∈
          (process_glyph [] [({'1'}, "a"), ({'2'}, "b")] "12").readings ∨
        String.intercalate "_" ["b", "a"] ∈
          (process_glyph [] [({'1'}, "a"), ({'2'}, "b")] "12").readings) :=
  ⟨by decide, by decide, by decide, by decide, by decide, by decide, by decide,
    decompose_union_of_disjoint_components [] [({'1'}, "a"), ({'2'}, "b")] "12"
      {'1'} {'2'} "a" "b" (by decide) (by decide) (by decide) (by decide) (by decide)
      (by decide) (by decide)⟩

-- ## Claim C5

/-- C5 counterexample: at the concrete sound table `tbl_c5` (five disjoint
single-character components, each a strict subset of the six-character
target `target_c5`), the decomposition search enumerates the full factorial
family of component orderings — all `5! = 120` permutation sequences; no
cap, memoization, abort or warning appears anywhere in the search. -/
theorem unguarded_search_counterexample :
    (possible_components tbl_c5 target_c5).length = 5 ∧
      (possible_components tbl_c5 target_c5).permutations'.length = Nat.factorial 5 := by
  constructor
  · decide
  · rw [← (List.permutations_perm_permutations'
        (possible_components tbl_c5 target_c5)).length_eq, List.length_permutations]
    have h : (possible_components tbl_c5 target_c5).length = 5 := by decide
    rw [h]

/-- C5 (amended): the permutation search is unguarded: for every sound table
and every target character set, the search enumerates exactly
`(number of candidate components)!` permutation sequences — factorially
many — and terminates only because that enumeration is finite; the code has
no cap on the candidate count, no memoization of visited remainder sets,
and no abort or warning path. -/
theorem unguarded_search_enumerates_factorial
    (subglyph_sounds : List (Finset Char × String)) (glyph_parts : Finset Char) :
    (possible_components subglyph_sounds glyph_parts).permutations'.length =
      Nat.factorial (possible_components subglyph_sounds glyph_parts).length := by
  rw [← (List.permutations_perm_permutations'
      (possible_components subglyph_sounds glyph_parts)).length_eq, List.length_permutations]
